import Mathlib

/-!
Verification of the alignment-preserving tokenization engine
(normalizers/unicode.rs, pre_tokenizers/whitespace.rs, models/noop/mod.rs).
Pure fragments of the Rust source are embedded as Lean functions; external
capabilities (the regex engine, the any_ascii crate, serde) appear as
function parameters.
-/

namespace Tokenizers

/-! ## AnyASCII normalizer (src/tokenizers/src/normalizers/unicode.rs) -/

/-- Rust `char::is_ascii`: the code point is at most 0x7F. -/
def charIsAscii (c : Char) : Bool := c.toNat ≤ 0x7F

/-- The (char, delta) pairs built for one replacement string in
`AnyASCII::normalize`: `replacement.chars().enumerate()` sends index 0 to
delta 0 and every later index to delta 1. -/
def expandReplacement (r : List Char) : List (Char × Int) :=
  r.enum.map (fun ic => (ic.2, if ic.1 == 0 then (0 : Int) else 1))

/-- Replacement pairs for one character that lies outside every
kept-pattern match, following `AnyASCII::normalize`: the char_map `cm` is
consulted first; with no entry, an ASCII character returns as itself with
delta 0, and a non-ASCII character goes through the external
transliteration `aa` (the `any_ascii_char` crate function). -/
def replacementPairs (cm : Char → Option String) (aa : Char → String) (c : Char) :
    List (Char × Int) :=
  match cm c with
  | some r => expandReplacement r.toList
  | none => if charIsAscii c then [(c, 0)] else expandReplacement (aa c).toList

/-- Characters of a gap between kept matches, each expanded and
concatenated, as in the two `transformations.extend(...)` gap blocks of
`AnyASCII::normalize`. -/
def gapPairs (cm : Char → Option String) (aa : Char → String) (cs : List Char) :
    List (Char × Int) :=
  (cs.map (replacementPairs cm aa)).flatten

/-- Extraction of the index span [a, b) of a sequence. Modelled from the
spec: `get_range` / the Offset Algebra's range extraction at char
granularity (the `NormalizedString` type itself is not among the provided
sources). -/
def sliceChars {α : Type} (s : List α) (a b : Nat) : List α :=
  (s.drop a).take (b - a)

/-- The loop of `AnyASCII::normalize` over the kept-pattern matches.
The accumulator `last` is `last_offset`; each match span contributes its
characters unmodified with delta 0, each preceding gap goes through
`gapPairs`, and the trailing gap is processed when `last_offset < len`. -/
def anyasciiGo (cm : Char → Option String) (aa : Char → String) (s : List Char) :
    List (Nat × Nat) → Nat → List (Char × Int)
  | [], last => if last < s.length then gapPairs cm aa (sliceChars s last s.length) else []
  | (a, b) :: rest, last =>
    (if last < a then gapPairs cm aa (sliceChars s last a) else []) ++
    ((sliceChars s a b).map (fun c => (c, (0 : Int))) ++
      anyasciiGo cm aa s rest b)

/-- The full transformation list `AnyASCII::normalize` passes to
`transform`, given the kept-pattern match spans `ms` found by the
external regex engine (char granularity, in order). With no compiled
regex the match list is empty and the whole text is one gap. -/
def anyasciiTransformations (cm : Char → Option String) (aa : Char → String)
    (s : List Char) (ms : List (Nat × Nat)) : List (Char × Int) :=
  anyasciiGo cm aa s ms 0

/-- The AnyASCII configuration record: the serialized fields
(kept_pattern, char_map) plus the non-serialized compiled regex. The
regex type is external (`SysRegex`), so it appears as the type parameter
R. -/
structure AnyASCIIConfig (R : Type) where
  kept_pattern : Option String
  regex : Option R
  char_map : List (Char × String)

/-- `AnyASCII::new`: compiles kept_pattern when present (through the
external regex compiler `compile`, propagating its error with `?`), and
defaults a missing char_map to empty. -/
def anyasciiNew (R : Type) (compile : String → Except String R)
    (kp : Option String) (cmap : Option (List (Char × String))) :
    Except String (AnyASCIIConfig R) := do
  let regex : Option R ←
    match kp with
    | Option.some p => Except.map Option.some (compile p)
    | Option.none => pure Option.none
  pure { kept_pattern := kp, regex := regex, char_map := cmap.getD [] }

/-- `Deserialize for AnyASCII`: deserialize the helper record's fields
(kept_pattern, char_map) and call `AnyASCII::new` on them; a construction
error is mapped through serde's `Error::custom` (the injection
`customErr`). -/
def anyasciiDeserialize (R : Type) (compile : String → Except String R)
    (customErr : String → String) (kp : Option String)
    (cmap : List (Char × String)) : Except String (AnyASCIIConfig R) :=
  (anyasciiNew R compile kp (Option.some cmap)).mapError customErr

/-! ## Noop model (src/tokenizers/src/models/noop/mod.rs) -/

/-- A token produced by a model: id, value, byte offsets. -/
structure Token where
  id : Nat
  value : String
  offsets : Nat × Nat
deriving DecidableEq

/-- `Noop::tokenize`: one token, id 0, the input itself, byte offsets
(0, byte length). -/
def noopTokenize (token : String) : Except String (List Token) :=
  .ok [{ id := 0, value := token, offsets := (0, token.utf8ByteSize) }]

/-- `Noop::token_to_id`: always None. -/
def noopTokenToId (_token : String) : Option Nat := Option.none

/-- `Noop::id_to_token`: always None. -/
def noopIdToToken (_id : Nat) : Option String := Option.none

/-- `Noop::get_vocab`: the empty map. -/
def noopGetVocab : List (String × Nat) := []

/-- `Noop::get_vocab_size`: 0. -/
def noopGetVocabSize : Nat := 0

/-! ## Whitespace pre-tokenizer (src/tokenizers/src/pre_tokenizers/whitespace.rs) -/

/-- The regex word class `\w` of the Whitespace pattern, on the ASCII
range exercised by the scenario: alphanumeric or underscore. -/
def isWordChar (c : Char) : Bool := c.isAlphanum || c == '_'

/-- The regex whitespace class `\s`. -/
def isSpaceChar (c : Char) : Bool := c.isWhitespace

/-- Character class for the Whitespace pattern `\w+|[^\w\s]+`: word
characters and non-word-non-space characters form the two alternatives;
whitespace belongs to neither. -/
def charClass (c : Char) : Option Bool :=
  if isWordChar c then Option.some true
  else if isSpaceChar c then Option.none
  else Option.some false

/-- Modelled from the spec: the external regex engine's `find_iter` for
the compiled Whitespace pattern `\w+|[^\w\s]+` — leftmost maximal runs
of a single alternative, as char-index spans in order. The state carries
the open run's start index and class. -/
def wsRunsGo : List Char → Nat → Option (Nat × Bool) → List (Nat × Nat)
  | [], _, Option.none => []
  | [], i, Option.some st => [(st.1, i)]
  | c :: cs, i, Option.none =>
    match charClass c with
    | Option.none => wsRunsGo cs (i + 1) Option.none
    | Option.some k => wsRunsGo cs (i + 1) (Option.some (i, k))
  | c :: cs, i, Option.some st =>
    match charClass c with
    | Option.none => (st.1, i) :: wsRunsGo cs (i + 1) Option.none
    | Option.some k =>
      if k == st.2 then wsRunsGo cs (i + 1) (Option.some (st.1, st.2))
      else (st.1, i) :: wsRunsGo cs (i + 1) (Option.some (i, k))

/-- All matches of the Whitespace pattern over a text. -/
def wsFindIter (s : List Char) : List (Nat × Nat) := wsRunsGo s 0 Option.none

/-- UTF-8 byte length of a character sequence. -/
def utf8Len (cs : List Char) : Nat := (cs.map Char.utf8Size).sum

/-- Modelled from the spec: `Whitespace::pre_tokenize` composed with
`get_splits(Original, Byte)`. Splitting on the inverted pattern with the
Removed delimiter behavior keeps exactly the pattern's match spans as
fragments (gaps are dropped, empty fragments never emitted); the
projection turns each fragment into its text and original byte span. -/
def whitespacePreTokenize (s : List Char) : List (List Char × (Nat × Nat)) :=
  (wsFindIter s).map (fun ab =>
    (sliceChars s ab.1 ab.2, (utf8Len (s.take ab.1), utf8Len (s.take ab.2))))

/-! ## Alignment buffer (`NormalizedString`), modelled from the spec -/

/-- Modelled from the spec: the Alignment Buffer (`NormalizedString`) —
the current text plus one Original-space byte span per current character,
as in the source's test `NormalizedString::new(original, normalized,
alignments, shift)`. The original text and shift are not needed by the
claims settled here. -/
structure NS where
  current : List Char
  alignment : List (Nat × Nat)
deriving DecidableEq

/-- Identity alignment of a raw text: character i covers its own UTF-8
byte range. -/
def nsIdAlign : List Char → Nat → List (Nat × Nat)
  | [], _ => []
  | c :: cs, off => (off, off + c.utf8Size) :: nsIdAlign cs (off + c.utf8Size)

/-- Modelled from the spec: a buffer constructed from raw input carries
the 1:1 identity alignment. -/
def nsFromString (s : String) : NS :=
  { current := s.toList, alignment := nsIdAlign s.toList 0 }

/-- Modelled from the spec: the NFKC entry point — the external Unicode
normalization `f : Char → List Char` rewrites the current text through
`transform` with fan-out alignment: every character of an expansion
carries the source character's span (delta 0 within an expansion). -/
def nsNfkc (f : Char → List Char) (n : NS) : NS :=
  { current := (n.current.map f).flatten,
    alignment := ((n.current.zip n.alignment).map
      (fun ca => (f ca.1).map (fun _ => ca.2))).flatten }

/-- Modelled from the spec: the fragment of external Unicode NFKC data
the scenario needs — U+FB01 decomposes to "fi"; other characters are
unchanged. -/
def nfkcCharFB01 (c : Char) : List Char :=
  if c.toNat = 0xFB01 then ['f', 'i'] else [c]

/-- Modelled from the spec: `slice` on a char-index range — the
corresponding sub-slices of current and alignment. -/
def NS.slice (n : NS) (a b : Nat) : NS :=
  { current := sliceChars n.current a b, alignment := sliceChars n.alignment a b }

/-- Modelled from the spec: `prepend` of one character (the strategy only
inserts a single space) — the synthetic span collapses onto the first
real character's original start. -/
def NS.prepend (n : NS) (c : Char) : NS :=
  { current := c :: n.current,
    alignment :=
      (match n.alignment.head? with
       | Option.some sp => (sp.1, sp.1)
       | Option.none => (0, 0)) :: n.alignment }

/-- Modelled from the spec: `append` of one character — the synthetic
span collapses onto the last real character's original end. -/
def NS.append (n : NS) (c : Char) : NS :=
  { current := n.current ++ [c],
    alignment := n.alignment ++
      [match n.alignment.getLast? with
       | Option.some sp => (sp.2, sp.2)
       | Option.none => (0, 0)] }

/-- `len` of the current text (char granularity; the strategy only
measures and trims single spaces, for which byte and char counts
agree). -/
def NS.len (n : NS) : Nat := n.current.length

/-! ## EditBoundaries pre-tokenizer -/

/-- The three per-side behaviors of `EditBoundaries`. -/
inductive EditBoundariesBehavior
  | none
  | ensureSpace
  | stripSpace
deriving DecidableEq

/-- The Rust panic reachable in `EditBoundaries::pre_tokenize`: the
`Option::unwrap` calls on `chars().nth(0)` / `nth_back(0)` of an empty
text. -/
inductive EBPanic
  | unwrapNone
deriving DecidableEq

/-- The left-side adjustment of `EditBoundaries::pre_tokenize`. Rust's
short-circuit `&&` means `chars().nth(0).unwrap()` — a panic on empty
text, modelled as the error — only runs when the side's behavior tests
the first character. -/
def leftDeltaOf (left : EditBoundariesBehavior) (cur : List Char) :
    Except EBPanic Int :=
  if left = .ensureSpace then
    match cur.head? with
    | Option.none => .error .unwrapNone
    | Option.some c => .ok (if c ≠ ' ' then -1 else 0)
  else if left = .stripSpace then
    match cur.head? with
    | Option.none => .error .unwrapNone
    | Option.some c => .ok (if c = ' ' then 1 else 0)
  else .ok 0

/-- The right-side adjustment, probing the last character
(`chars().nth_back(0)`), with the signs of the left side mirrored. -/
def rightDeltaOf (right : EditBoundariesBehavior) (cur : List Char) :
    Except EBPanic Int :=
  if right = .ensureSpace then
    match cur.getLast? with
    | Option.none => .error .unwrapNone
    | Option.some c => .ok (if c ≠ ' ' then 1 else 0)
  else if right = .stripSpace then
    match cur.getLast? with
    | Option.none => .error .unwrapNone
    | Option.some c => .ok (if c = ' ' then -1 else 0)
  else .ok 0

/-- Both per-side adjustments of `EditBoundaries::pre_tokenize`. -/
def computeDeltas (left right : EditBoundariesBehavior) (n : NS) :
    Except EBPanic (Int × Int) := do
  let ld ← leftDeltaOf left n.current
  let rd ← rightDeltaOf right n.current
  pure (ld, rd)

/-- The per-fragment body of `EditBoundaries::pre_tokenize`: zero deltas
return the fragment unchanged; shrink-only deltas (left ≥ 0, right ≤ 0)
perform a single slice, clamped to the empty slice when the fragment is
shorter than the total trim; otherwise a space is prepended and/or
appended. -/
def editBoundariesApply (left right : EditBoundariesBehavior) (n : NS) :
    Except EBPanic NS := do
  let dd ← computeDeltas left right n
  let ld := dd.1
  let rd := dd.2
  if ld = 0 ∧ rd = 0 then
    pure n
  else if ld ≥ 0 ∧ rd ≤ 0 then
    if n.len < (ld - rd).toNat then
      pure (n.slice 0 0)
    else
      pure (n.slice ld.toNat ((n.len : Int) + rd).toNat)
  else
    let n1 := if ld < 0 then n.prepend ' ' else n
    let n2 := if rd > 0 then n1.append ' ' else n1
    pure n2

theorem enumFrom_map_expand (cs : List Char) : ∀ n : Nat, n ≠ 0 →
    (List.enumFrom n cs).map (fun ic => (ic.2, if ic.1 == 0 then (0 : Int) else 1))
      = cs.map (fun c => (c, (1 : Int))) := by
  induction cs with
  | nil => intro n _; rfl
  | cons c cs ih =>
    intro n hn
    simp only [List.enumFrom, List.map_cons]
    rw [ih (n + 1) (Nat.succ_ne_zero n)]
    simp [hn]

theorem expandReplacement_cons (c : Char) (cs : List Char) :
    expandReplacement (c :: cs) = (c, 0) :: cs.map (fun x => (x, (1 : Int))) := by
  simp only [expandReplacement, List.enum, List.enumFrom, List.map_cons]
  rw [enumFrom_map_expand cs 1 one_ne_zero]
  simp

theorem expandReplacement_head (l : List Char) :
    ∀ p, (expandReplacement l).head? = some p → p.2 = 0 := by
  cases l with
  | nil => intro p hp; simp [expandReplacement] at hp
  | cons c cs =>
    intro p hp
    rw [expandReplacement_cons] at hp
    simp only [List.head?_cons, Option.some.injEq] at hp
    rw [← hp]

theorem expandReplacement_tail (l : List Char) :
    ∀ p ∈ (expandReplacement l).drop 1, p.2 = 1 := by
  cases l with
  | nil => simp [expandReplacement]
  | cons c cs =>
    rw [expandReplacement_cons]
    intro p hp
    simp only [List.drop_succ_cons, List.drop_zero] at hp
    rcases List.mem_map.mp hp with ⟨x, _, hx⟩
    rw [← hx]

theorem expandReplacement_deltas (r : List Char) :
    ∀ p ∈ expandReplacement r, p.2 = 0 ∨ p.2 = 1 := by
  cases r with
  | nil => simp [expandReplacement]
  | cons c cs =>
    rw [expandReplacement_cons]
    intro p hp
    rcases List.mem_cons.mp hp with h | h
    · left; rw [h]
    · right; rcases List.mem_map.mp h with ⟨x, _, hx⟩; rw [← hx]

theorem replacementPairs_deltas (cm : Char → Option String) (aa : Char → String)
    (c : Char) : ∀ p ∈ replacementPairs cm aa c, p.2 = 0 ∨ p.2 = 1 := by
  unfold replacementPairs
  cases cm c with
  | some r => exact expandReplacement_deltas r.toList
  | none =>
    by_cases hc : charIsAscii c
    · simp [hc]
    · simp only [hc, Bool.false_eq_true, if_false]
      exact expandReplacement_deltas (aa c).toList

theorem gapPairs_deltas (cm : Char → Option String) (aa : Char → String)
    (cs : List Char) : ∀ p ∈ gapPairs cm aa cs, p.2 = 0 ∨ p.2 = 1 := by
  intro p hp
  rcases List.mem_flatten.mp hp with ⟨l, hl, hpl⟩
  rcases List.mem_map.mp hl with ⟨c, _, hc⟩
  exact replacementPairs_deltas cm aa c p (hc ▸ hpl)

theorem anyasciiGo_deltas (cm : Char → Option String) (aa : Char → String)
    (s : List Char) (ms : List (Nat × Nat)) : ∀ last : Nat,
    ∀ p ∈ anyasciiGo cm aa s ms last, p.2 = 0 ∨ p.2 = 1 := by
  induction ms with
  | nil =>
    intro last p hp
    simp only [anyasciiGo] at hp
    by_cases h : last < s.length
    · rw [if_pos h] at hp; exact gapPairs_deltas cm aa _ p hp
    · rw [if_neg h] at hp; exact absurd hp (List.not_mem_nil p)
  | cons m rest ih =>
    intro last p hp
    obtain ⟨a, b⟩ := m
    simp only [anyasciiGo] at hp
    rcases List.mem_append.mp hp with h | h
    · by_cases hla : last < a
      · rw [if_pos hla] at h; exact gapPairs_deltas cm aa _ p h
      · rw [if_neg hla] at h; exact absurd h (List.not_mem_nil p)
    · rcases List.mem_append.mp h with h2 | h2
      · rcases List.mem_map.mp h2 with ⟨x, _, hx⟩
        left; rw [← hx]
      · exact ih b p h2

theorem replacementPairs_head (cm : Char → Option String) (aa : Char → String)
    (c : Char) : ∀ p, (replacementPairs cm aa c).head? = some p → p.2 = 0 := by
  unfold replacementPairs
  cases cm c with
  | some r => exact expandReplacement_head r.toList
  | none =>
    by_cases hc : charIsAscii c
    · intro p hp
      simp only [hc, if_pos, List.head?_cons, Option.some.injEq] at hp
      rw [← hp]
    · simp only [hc, Bool.false_eq_true, if_false]
      exact expandReplacement_head (aa c).toList

theorem replacementPairs_tail (cm : Char → Option String) (aa : Char → String)
    (c : Char) : ∀ p ∈ (replacementPairs cm aa c).drop 1, p.2 = 1 := by
  unfold replacementPairs
  cases cm c with
  | some r => exact expandReplacement_tail r.toList
  | none =>
    by_cases hc : charIsAscii c
    · simp [hc]
    · simp only [hc, Bool.false_eq_true, if_false]
      exact expandReplacement_tail (aa c).toList

/-- C1: false as stated. With a char_map sending 'x' to the two-character
replacement "ab", the compiled sequence for the text "xx" (no kept
matches) is [('a',0), ('b',1), ('a',0), ('b',1)]: the second pair of each
expansion carries delta 1, not 0, and the pair moving to the next
original unit carries delta 0, not a nonzero consumed count. -/
theorem C1_counterexample :
    anyasciiTransformations (fun c => if c = 'x' then some "ab" else none)
        (fun _ => "") ['x', 'x'] []
      = [('a', 0), ('b', 1), ('a', 0), ('b', 1)] ∧
    ¬ (∀ p ∈ (replacementPairs (fun c => if c = 'x' then some "ab" else none)
        (fun _ => "") 'x').drop 1, p.2 = 0) := by
  constructor
  · rfl
  · decide

/-- C1 (amended): in the compiled (char, delta) sequence of
`AnyASCII::normalize`, the pair starting each original unit's replacement
carries delta 0, every later pair within an expansion carries delta 1,
and every delta in the whole sequence is 0 or 1. -/
theorem C1_amended (cm : Char → Option String) (aa : Char → String) (c : Char)
    (s : List Char) (ms : List (Nat × Nat)) :
    (∀ p, (replacementPairs cm aa c).head? = some p → p.2 = 0) ∧
    (∀ p ∈ (replacementPairs cm aa c).drop 1, p.2 = 1) ∧
    (∀ p ∈ anyasciiTransformations cm aa s ms, p.2 = 0 ∨ p.2 = 1) :=
  ⟨replacementPairs_head cm aa c, replacementPairs_tail cm aa c,
    anyasciiGo_deltas cm aa s ms 0⟩

/-- C1 amended, instantiated: for the char_map sending 'x' to "ab", the
first pair has delta 0 and the second delta 1. -/
theorem C1_amended_witness :
    ((('a', (0 : Int)) : Char × Int).2 = 0) ∧ ((('b', (1 : Int)) : Char × Int).2 = 1) :=
  ⟨(C1_amended (fun c => if c = 'x' then some "ab" else none) (fun _ => "") 'x'
      [] []).1 ('a', 0) (by decide),
   (C1_amended (fun c => if c = 'x' then some "ab" else none) (fun _ => "") 'x'
      [] []).2.1 ('b', 1) (by decide)⟩

theorem anyasciiTransformations_nil_matches (cm : Char → Option String)
    (aa : Char → String) (s : List Char) :
    anyasciiTransformations cm aa s [] = gapPairs cm aa s := by
  unfold anyasciiTransformations anyasciiGo
  by_cases h : 0 < s.length
  · rw [if_pos h]
    congr 1
    simp [sliceChars]
  · rw [if_neg h]
    have hs : s = [] := List.length_eq_zero.mp (Nat.eq_zero_of_not_pos h)
    subst hs
    rfl

/-- C7: `AnyASCII::normalize` processes every character outside the kept
matches by consulting char_map first (even for ASCII characters); only
with no char_map entry does it pass ASCII characters through unchanged
and transliterate non-ASCII characters with the generic any-ASCII
function. The first conjunct ties `replacementPairs` to the full compiled
sequence: with no kept matches, the sequence is the per-character
replacement of every current character, concatenated. -/
theorem C7_char_map_first (cm : Char → Option String) (aa : Char → String)
    (c : Char) (s : List Char) :
    (anyasciiTransformations cm aa s [] = (s.map (replacementPairs cm aa)).flatten) ∧
    (∀ r, cm c = some r → replacementPairs cm aa c = expandReplacement r.toList) ∧
    (cm c = none → charIsAscii c = true → replacementPairs cm aa c = [(c, 0)]) ∧
    (cm c = none → charIsAscii c = false →
      replacementPairs cm aa c = expandReplacement (aa c).toList) := by
  refine ⟨anyasciiTransformations_nil_matches cm aa s, ?_, ?_, ?_⟩
  · intro r hr
    unfold replacementPairs
    rw [hr]
  · intro hn ha
    unfold replacementPairs
    rw [hn, ha]
    simp
  · intro hn ha
    unfold replacementPairs
    rw [hn, ha]
    simp

/-- C7, instantiated: a char_map entry wins even for the ASCII character
'a'; with no entry, 'a' passes through and a non-ASCII character is
transliterated. -/
theorem C7_witness :
    (replacementPairs (fun _ => some "zz") (fun _ => "q") 'a'
        = expandReplacement "zz".toList) ∧
    (replacementPairs (fun _ => none) (fun _ => "q") 'a' = [('a', 0)]) ∧
    (replacementPairs (fun _ => none) (fun _ => "q") 'é'
        = expandReplacement "q".toList) :=
  ⟨(C7_char_map_first (fun _ => some "zz") (fun _ => "q") 'a' []).2.1 "zz" rfl,
   (C7_char_map_first (fun _ => none) (fun _ => "q") 'a' []).2.2.1 rfl (by decide),
   (C7_char_map_first (fun _ => none) (fun _ => "q") 'é' []).2.2.2 rfl (by decide)⟩

theorem anyasciiGo_match_piece (cm : Char → Option String) (aa : Char → String)
    (s : List Char) (ms : List (Nat × Nat)) : ∀ a b : Nat, (a, b) ∈ ms →
    ∀ last : Nat, ∃ pre post, anyasciiGo cm aa s ms last =
      pre ++ ((sliceChars s a b).map (fun c => (c, (0 : Int))) ++ post) := by
  induction ms with
  | nil => intro a b h; exact absurd h (List.not_mem_nil _)
  | cons m rest ih =>
    intro a b h last
    rcases List.mem_cons.mp h with h1 | h2
    · subst h1
      exact ⟨if last < a then gapPairs cm aa (sliceChars s last a) else [],
        anyasciiGo cm aa s rest b, rfl⟩
    · obtain ⟨pre, post, hpp⟩ := ih a b h2 m.2
      refine ⟨((if last < m.1 then gapPairs cm aa (sliceChars s last m.1) else []) ++
        ((sliceChars s m.1 m.2).map (fun c => (c, (0 : Int))))) ++ pre, post, ?_⟩
      obtain ⟨a1, b1⟩ := m
      simp only [anyasciiGo]
      rw [hpp]
      simp [List.append_assoc]

/-- C8: every character of the current text lying inside a kept-pattern
match is emitted by `AnyASCII::normalize` as itself with delta 0: the
compiled sequence contains, for each match span, the segment mapping each
matched character c to (c, 0), independent of char_map and of the
transliteration function. -/
theorem C8_kept_pass (cm : Char → Option String) (aa : Char → String)
    (s : List Char) (ms : List (Nat × Nat)) (a b : Nat) (h : (a, b) ∈ ms) :
    ∃ pre post, anyasciiTransformations cm aa s ms =
      pre ++ ((sliceChars s a b).map (fun c => (c, (0 : Int))) ++ post) :=
  anyasciiGo_match_piece cm aa s ms a b h 0

/-- C8, instantiated: with the kept match (0,2) on "éz", the matched
characters are emitted as themselves with delta 0 even though the
char_map maps both and one is non-ASCII. -/
theorem C8_kept_pass_witness :
    ∃ pre post,
      anyasciiTransformations (fun _ => some "Q") (fun _ => "w") ['é', 'z'] [(0, 2)] =
        pre ++ ((sliceChars ['é', 'z'] 0 2).map (fun c => (c, (0 : Int))) ++ post) :=
  C8_kept_pass (fun _ => some "Q") (fun _ => "w") ['é', 'z'] [(0, 2)] 0 2
    (by decide)

/-- C2: pre-tokenizing "Hey man!" with the Whitespace strategy
(word/punctuation pattern, delimiter Removed) projected in Original space
at byte granularity yields [("Hey",(0,3)), ("man",(4,7)), ("!",(7,8))],
and pre-tokenizing "\n" yields no fragments. -/
theorem C2_whitespace_scenario :
    whitespacePreTokenize "Hey man!".toList =
      [("Hey".toList, (0, 3)), ("man".toList, (4, 7)), ("!".toList, (7, 8))] ∧
    whitespacePreTokenize "\n".toList = [] := by
  exact ⟨rfl, rfl⟩

/-- C3: normalizing the single character U+FB01 with NFKC yields current
text "fi", and each of the two output characters' Original-space
alignment is the byte span (0,3) of the single source character. -/
theorem C3_nfkc_expansion :
    (nsNfkc nfkcCharFB01 (nsFromString (String.mk [Char.ofNat 0xFB01]))).current
      = "fi".toList ∧
    (nsNfkc nfkcCharFB01 (nsFromString (String.mk [Char.ofNat 0xFB01]))).alignment
      = [(0, 3), (0, 3)] := by
  exact ⟨rfl, rfl⟩

/-- C5: the claim's guarded behavior does not hold in the code: on an
empty fragment, a left or right policy other than None reaches
`chars().nth(0).unwrap()` / `nth_back(0).unwrap()` on None — a Rust
panic, not a typed EmptyFragment error; with both policies None the empty
fragment is handled without error. -/
theorem C5_empty_fragment :
    editBoundariesApply .ensureSpace .none (nsFromString "") = .error .unwrapNone ∧
    editBoundariesApply .stripSpace .none (nsFromString "") = .error .unwrapNone ∧
    editBoundariesApply .none .ensureSpace (nsFromString "") = .error .unwrapNone ∧
    editBoundariesApply .none .stripSpace (nsFromString "") = .error .unwrapNone ∧
    editBoundariesApply .none .none (nsFromString "") = .ok (nsFromString "") := by
  exact ⟨rfl, rfl, rfl, rfl, rfl⟩

/-- C6: deserializing an AnyASCII configuration recompiles the regex from
the serialized kept_pattern: with a present pattern the instance's regex
is the compiled form and a compile failure fails the whole
deserialization (through serde's custom error); with kept_pattern absent
it succeeds with no regex. -/
theorem C6_deserialize_recompiles (R : Type) (compile : String → Except String R)
    (customErr : String → String) (p : String) (cmap : List (Char × String)) :
    (∀ r, compile p = .ok r →
      anyasciiDeserialize R compile customErr (Option.some p) cmap =
        .ok { kept_pattern := Option.some p, regex := Option.some r,
              char_map := cmap }) ∧
    (∀ e, compile p = .error e →
      anyasciiDeserialize R compile customErr (Option.some p) cmap =
        .error (customErr e)) ∧
    (anyasciiDeserialize R compile customErr Option.none cmap =
      .ok { kept_pattern := Option.none, regex := Option.none, char_map := cmap }) := by
  refine ⟨?_, ?_, ?_⟩
  · intro r hr
    simp [anyasciiDeserialize, anyasciiNew, hr, Except.map, Except.mapError]
  · intro e he
    simp [anyasciiDeserialize, anyasciiNew, he, Except.map, Except.mapError]
  · rfl

/-- C6, instantiated with a concrete compiler over R = Nat: "ok"
compiles to 7, everything else fails. -/
theorem C6_witness :
    (anyasciiDeserialize Nat (fun q => if q = "ok" then .ok 7 else .error "bad")
        (fun e => "custom:" ++ e) (Option.some "ok") [] =
      .ok { kept_pattern := Option.some "ok", regex := Option.some 7,
            char_map := [] }) ∧
    (anyasciiDeserialize Nat (fun q => if q = "ok" then .ok 7 else .error "bad")
        (fun e => "custom:" ++ e) (Option.some "nope") [] =
      .error ("custom:" ++ "bad")) ∧
    (anyasciiDeserialize Nat (fun q => if q = "ok" then .ok 7 else .error "bad")
        (fun e => "custom:" ++ e) Option.none [] =
      .ok { kept_pattern := Option.none, regex := Option.none, char_map := [] }) :=
  ⟨(C6_deserialize_recompiles Nat _ _ "ok" []).1 7 rfl,
   (C6_deserialize_recompiles Nat _ _ "nope" []).2.1 "bad" rfl,
   (C6_deserialize_recompiles Nat _ _ "" []).2.2⟩

/-- C10: `Noop::tokenize` returns exactly one token with id 0, the input
as value and byte offsets (0, byte length); lookups return None in both
directions; the vocabulary is empty with size 0. -/
theorem C10_noop (s : String) (i : Nat) :
    noopTokenize s = .ok [{ id := 0, value := s, offsets := (0, s.utf8ByteSize) }] ∧
    noopTokenToId s = Option.none ∧
    noopIdToToken i = Option.none ∧
    noopGetVocab = [] ∧
    noopGetVocabSize = 0 :=
  ⟨rfl, rfl, rfl, rfl, rfl⟩

theorem leftDeltaOf_spec (left : EditBoundariesBehavior) (cur : List Char)
    (d : Int) (h : leftDeltaOf left cur = .ok d) :
    (d < 0 ↔ (left = .ensureSpace ∧ cur.head? ≠ Option.some ' ')) ∧
    (0 < d ↔ (left = .stripSpace ∧ cur.head? = Option.some ' ')) := by
  cases left with
  | none =>
    have hd : d = 0 := by
      have h0 : Except.ok (ε := EBPanic) (0 : Int) = .ok d := h
      exact (Except.ok.inj h0).symm
    subst hd
    simp
  | ensureSpace =>
    have h' : (match cur.head? with
        | Option.none => Except.error (α := Int) EBPanic.unwrapNone
        | Option.some c => Except.ok (if c ≠ ' ' then (-1 : Int) else 0)) = .ok d := h
    cases hh : cur.head? with
    | none => rw [hh] at h'; exact absurd h' (by simp)
    | some c =>
      rw [hh] at h'
      by_cases hc : c = ' '
      · subst hc
        have hd : d = 0 := by simpa using h'.symm
        subst hd
        simp [hh]
      · have hd : d = -1 := by
          simp only [ne_eq, hc, not_false_eq_true, if_true, Except.ok.injEq] at h'
          exact h'.symm
        subst hd
        simp [hh, hc]
  | stripSpace =>
    have h' : (match cur.head? with
        | Option.none => Except.error (α := Int) EBPanic.unwrapNone
        | Option.some c => Except.ok (if c = ' ' then (1 : Int) else 0)) = .ok d := h
    cases hh : cur.head? with
    | none => rw [hh] at h'; exact absurd h' (by simp)
    | some c =>
      rw [hh] at h'
      by_cases hc : c = ' '
      · subst hc
        have hd : d = 1 := by simpa using h'.symm
        subst hd
        simp [hh]
      · have hd : d = 0 := by
          simp only [hc, if_false, Except.ok.injEq] at h'
          exact h'.symm
        subst hd
        simp [hh, hc]

theorem rightDeltaOf_spec (right : EditBoundariesBehavior) (cur : List Char)
    (d : Int) (h : rightDeltaOf right cur = .ok d) :
    (0 < d ↔ (right = .ensureSpace ∧ cur.getLast? ≠ Option.some ' ')) ∧
    (d < 0 ↔ (right = .stripSpace ∧ cur.getLast? = Option.some ' ')) := by
  cases right with
  | none =>
    have hd : d = 0 := by
      have h0 : Except.ok (ε := EBPanic) (0 : Int) = .ok d := h
      exact (Except.ok.inj h0).symm
    subst hd
    simp
  | ensureSpace =>
    have h' : (match cur.getLast? with
        | Option.none => Except.error (α := Int) EBPanic.unwrapNone
        | Option.some c => Except.ok (if c ≠ ' ' then (1 : Int) else 0)) = .ok d := h
    cases hh : cur.getLast? with
    | none => rw [hh] at h'; exact absurd h' (by simp)
    | some c =>
      rw [hh] at h'
      by_cases hc : c = ' '
      · subst hc
        have hd : d = 0 := by simpa using h'.symm
        subst hd
        simp [hh]
      · have hd : d = 1 := by
          simp only [ne_eq, hc, not_false_eq_true, if_true, Except.ok.injEq] at h'
          exact h'.symm
        subst hd
        simp [hh, hc]
  | stripSpace =>
    have h' : (match cur.getLast? with
        | Option.none => Except.error (α := Int) EBPanic.unwrapNone
        | Option.some c => Except.ok (if c = ' ' then (-1 : Int) else 0)) = .ok d := h
    cases hh : cur.getLast? with
    | none => rw [hh] at h'; exact absurd h' (by simp)
    | some c =>
      rw [hh] at h'
      by_cases hc : c = ' '
      · subst hc
        have hd : d = -1 := by simpa using h'.symm
        subst hd
        simp [hh]
      · have hd : d = 0 := by
          simp only [hc, if_false, Except.ok.injEq] at h'
          exact h'.symm
        subst hd
        simp [hh, hc]

theorem computeDeltas_eq (left right : EditBoundariesBehavior) (n : NS)
    (ld rd : Int) (h : computeDeltas left right n = .ok (ld, rd)) :
    leftDeltaOf left n.current = .ok ld ∧ rightDeltaOf right n.current = .ok rd := by
  unfold computeDeltas at h
  cases hl : leftDeltaOf left n.current with
  | error e => rw [hl] at h; exact absurd h (by simp [Bind.bind, Except.bind])
  | ok a =>
    rw [hl] at h
    cases hr : rightDeltaOf right n.current with
    | error e => rw [hr] at h; exact absurd h (by simp [Bind.bind, Except.bind])
    | ok b =>
      rw [hr] at h
      simp only [Bind.bind, Except.bind, pure, Except.pure, Except.ok.injEq,
        Prod.mk.injEq] at h
      rw [h.1, h.2]
      exact ⟨rfl, rfl⟩

/-- C4: false as stated. With left policy EnsureSpace on "abc" (no
leading space, so a space must be inserted) the computed left adjustment
is -1 — negative — and the edit performed is the insertion of a space by
prepend, not a removal. -/
theorem C4_counterexample :
    computeDeltas .ensureSpace .none (nsFromString "abc") = .ok (-1, 0) ∧
    editBoundariesApply .ensureSpace .none (nsFromString "abc") =
      .ok ((nsFromString "abc").prepend ' ') := by
  exact ⟨rfl, rfl⟩

/-- C4 (amended): the claim's sign convention holds on the right side —
the adjustment is positive exactly when a trailing space must be inserted
(EnsureSpace with no trailing space) and negative exactly when one must
be removed (StripSpace with a trailing space) — while the left side is
mirrored: negative exactly when a leading space must be inserted,
positive exactly when one must be removed. -/
theorem C4_amended (left right : EditBoundariesBehavior) (n : NS) (ld rd : Int)
    (h : computeDeltas left right n = .ok (ld, rd)) :
    (ld < 0 ↔ (left = .ensureSpace ∧ n.current.head? ≠ Option.some ' ')) ∧
    (0 < ld ↔ (left = .stripSpace ∧ n.current.head? = Option.some ' ')) ∧
    (0 < rd ↔ (right = .ensureSpace ∧ n.current.getLast? ≠ Option.some ' ')) ∧
    (rd < 0 ↔ (right = .stripSpace ∧ n.current.getLast? = Option.some ' ')) := by
  obtain ⟨hl, hr⟩ := computeDeltas_eq left right n ld rd h
  obtain ⟨a1, a2⟩ := leftDeltaOf_spec left n.current ld hl
  obtain ⟨b1, b2⟩ := rightDeltaOf_spec right n.current rd hr
  exact ⟨a1, a2, b1, b2⟩

/-- C4 amended, instantiated on " x" with left StripSpace and right
EnsureSpace: the left adjustment 1 is positive and indeed a leading space
is to be removed. -/
theorem C4_amended_witness :
    (0 : Int) < 1 ↔ (EditBoundariesBehavior.stripSpace = .stripSpace ∧
      (nsFromString " x").current.head? = Option.some ' ') :=
  (C4_amended .stripSpace .ensureSpace (nsFromString " x") 1 1 rfl).2.1

theorem ns_slice_full (n : NS) (hlen : n.alignment.length = n.current.length) :
    n.slice 0 n.len = n := by
  obtain ⟨cur, al⟩ := n
  simp only [NS.slice, NS.len, sliceChars, List.drop_zero, Nat.sub_zero]
  simp only at hlen
  have h1 : cur.take cur.length = cur := List.take_length cur
  have h2 : al.take cur.length = al := by rw [← hlen]; exact List.take_length al
  rw [h1, h2]

/-- C9: when both computed adjustments are zero,
`EditBoundaries::pre_tokenize` returns the fragment unchanged; when the
adjustments only shrink the buffer (left ≥ 0 and right ≤ 0), the edit is
performed as one slice of the fragment. -/
theorem C9_unchanged_or_slice (left right : EditBoundariesBehavior) (n : NS)
    (ld rd : Int) (h : computeDeltas left right n = .ok (ld, rd))
    (hlen : n.alignment.length = n.current.length) :
    (ld = 0 ∧ rd = 0 → editBoundariesApply left right n = .ok n) ∧
    (ld ≥ 0 ∧ rd ≤ 0 →
      ∃ a b, editBoundariesApply left right n = .ok (n.slice a b)) := by
  have happ : editBoundariesApply left right n =
      (if ld = 0 ∧ rd = 0 then pure n
       else if ld ≥ 0 ∧ rd ≤ 0 then
         if n.len < (ld - rd).toNat then pure (n.slice 0 0)
         else pure (n.slice ld.toNat ((n.len : Int) + rd).toNat)
       else
         pure (if rd > 0 then (if ld < 0 then n.prepend ' ' else n).append ' '
               else (if ld < 0 then n.prepend ' ' else n))) := by
    unfold editBoundariesApply
    rw [h]
    rfl
  constructor
  · rintro ⟨h0l, h0r⟩
    rw [happ, if_pos ⟨h0l, h0r⟩]
    rfl
  · rintro ⟨hge, hle⟩
    rw [happ]
    by_cases hz : ld = 0 ∧ rd = 0
    · rw [if_pos hz]
      exact ⟨0, n.len, by rw [ns_slice_full n hlen]; rfl⟩
    · rw [if_neg hz, if_pos ⟨hge, hle⟩]
      by_cases hsmall : n.len < (ld - rd).toNat
      · rw [if_pos hsmall]
        exact ⟨0, 0, rfl⟩
      · rw [if_neg hsmall]
        exact ⟨ld.toNat, ((n.len : Int) + rd).toNat, rfl⟩

/-- C9, instantiated: on "ab" with both policies None the deltas are
(0,0) and the fragment is unchanged; on " a" with left StripSpace the
deltas are (1,0) and the result is one slice. -/
theorem C9_witness :
    editBoundariesApply .none .none (nsFromString "ab") = .ok (nsFromString "ab") ∧
    ∃ a b, editBoundariesApply .stripSpace .none (nsFromString " a") =
      .ok ((nsFromString " a").slice a b) :=
  ⟨(C9_unchanged_or_slice .none .none (nsFromString "ab") 0 0 rfl rfl).1 ⟨rfl, rfl⟩,
   (C9_unchanged_or_slice .stripSpace .none (nsFromString " a") 1 0 rfl rfl).2
     ⟨by decide, by decide⟩⟩

end Tokenizers
